import Mathlib

/-!
Verification of the portfolio ledger and order-execution engine of the
daasai/alpha paper-trading system, together with two properties of its
frontend sources (the position display fallback in `Portfolio.tsx` /
`SellOrderModal.tsx` and the event bus in `eventBus.ts`).

The backend ledger (`PortfolioRepository` / `PortfolioService`) is described
by the repository's design plan but its code is not among the checked-in
sources, so its operations are modelled from the specification.  Money
amounts are modelled as exact rationals and share volumes as natural
numbers; with exact arithmetic the floating-point tolerance of the spec
becomes exact equality.
-/

namespace Alpha

/-- Modelled from the spec: the order side, `action ∈ {BUY, SELL}`. -/
inductive Action where
  | BUY
  | SELL
deriving DecidableEq

/-- Modelled from the spec: the order status, `status ∈ {FILLED, CANCELLED}`.
`CANCELLED` is a reserved value with no producer in this scope. -/
inductive OrderStatus where
  | FILLED
  | CANCELLED
deriving DecidableEq

/-- Modelled from the spec: the singleton Account row with `cash`,
`market_value`, `frozen_cash` and the derived `total_asset`. -/
structure Account where
  cash : ℚ
  market_value : ℚ
  frozen_cash : ℚ
  total_asset : ℚ
deriving DecidableEq

/-- Modelled from the spec: one Position per traded instrument code, with the
T+1 split between `total_vol` and `avail_vol`, the volume-weighted
`avg_price`, the nullable `current_price` (null until the first price sync)
and the derived `profit` / `profit_pct`. -/
structure Position where
  code : String
  total_vol : ℕ
  avail_vol : ℕ
  avg_price : ℚ
  current_price : Option ℚ
  profit : ℚ
  profit_pct : ℚ
deriving DecidableEq

/-- Modelled from the spec: the append-only Order audit record. -/
structure Order where
  code : String
  action : Action
  price : ℚ
  volume : ℕ
  fee : ℚ
  status : OrderStatus
deriving DecidableEq

/-- Modelled from the spec: the persisted ledger state — the optional
singleton Account row, the Position rows (unique key = code) and the
append-only Orders table. -/
structure Ledger where
  account : Option Account
  positions : List Position
  orders : List Order
deriving DecidableEq

/-- Modelled from the spec: the six error kinds surfaced by the Ledger
Store. -/
inductive LedgerError where
  | AccountNotInitialized
  | InvalidOrderParameters
  | InsufficientFunds
  | PositionNotFound
  | InsufficientAvailableVolume
  | TransactionAborted
deriving DecidableEq

/-- Modelled from the spec: `market_value = Σ(current_price × total_vol)`
over all positions; a position whose price was never synced (null
`current_price`) contributes nothing. -/
def marketValue (ps : List Position) : ℚ :=
  (ps.map (fun p => p.current_price.getD 0 * (p.total_vol : ℚ))).sum

/-- Modelled from the spec: `get_position(code)` — lookup of the Position row
by its unique code. -/
def findPos (ps : List Position) (code : String) : Option Position :=
  ps.find? (fun p => p.code == code)

/-- Modelled from the spec: the Position created by the first BUY of a code:
`total_vol = volume`, `avail_vol = 0` (T+1), `avg_price = price`,
`current_price` null until the first sync. -/
def newPos (code : String) (price : ℚ) (volume : ℕ) : Position :=
  { code := code, total_vol := volume, avail_vol := 0, avg_price := price,
    current_price := none, profit := 0, profit_pct := 0 }

/-- Modelled from the spec: the update of an existing Position by a BUY:
volume-weighted `avg_price`, `total_vol += volume`, `avail_vol` unchanged
(T+1 rule). -/
def buyUpd (price : ℚ) (volume : ℕ) (p : Position) : Position :=
  { p with
      avg_price := (p.avg_price * (p.total_vol : ℚ) + price * (volume : ℚ)) /
        ((p.total_vol : ℚ) + (volume : ℚ)),
      total_vol := p.total_vol + volume }

/-- Modelled from the spec: the BUY upsert — update the Position row of
`code` if present, otherwise create a fresh one. -/
def buyUpsert (code : String) (price : ℚ) (volume : ℕ) :
    List Position → List Position
  | [] => [newPos code price volume]
  | p :: ps =>
    if p.code == code then buyUpd price volume p :: ps
    else p :: buyUpsert code price volume ps

/-- Modelled from the spec: the update of a Position by a SELL:
`total_vol -= volume`, `avail_vol -= volume`. -/
def sellUpd (volume : ℕ) (p : Position) : Position :=
  { p with total_vol := p.total_vol - volume, avail_vol := p.avail_vol - volume }

/-- Modelled from the spec: the SELL update of the positions table — decrease
the sold Position's volumes and delete the row entirely when `total_vol`
reaches zero. -/
def sellUpdate (code : String) (volume : ℕ) : List Position → List Position
  | [] => []
  | p :: ps =>
    if p.code == code then
      if p.total_vol - volume = 0 then ps else sellUpd volume p :: ps
    else p :: sellUpdate code volume ps

/-- Modelled from the spec: the commit step shared by both order branches
(`_recalculate_account_assets`): write the new cash, recompute
`market_value` over the remaining positions, recompute
`total_asset = cash + market_value`, and append the FILLED Order row. -/
def commitOrder (l : Ledger) (a : Account) (cash' : ℚ) (ps' : List Position)
    (o : Order) : Ledger :=
  { account := some { a with
      cash := cash',
      market_value := marketValue ps',
      total_asset := cash' + marketValue ps' },
    positions := ps',
    orders := l.orders ++ [o] }

/-- Modelled from the spec: the atomic `execute_order` procedure of the
Ledger Store (steps 1-6 of §4.2): parameter validation, BUY funds check and
upsert, SELL availability check and update/delete, recomputation of the
account totals and insertion of the FILLED Order, as one indivisible unit.
A returned error corresponds to a rolled-back transaction. -/
def execute_order (l : Ledger) (code : String) (act : Action) (price : ℚ)
    (volume : ℕ) (fee : ℚ) : Except LedgerError (Ledger × Order) :=
  if price ≤ 0 ∨ volume = 0 then
    .error .InvalidOrderParameters
  else
    match l.account with
    | none => .error .AccountNotInitialized
    | some a =>
      match act with
      | .BUY =>
        if a.cash < price * (volume : ℚ) + fee then
          .error .InsufficientFunds
        else
          .ok (commitOrder l a (a.cash - (price * (volume : ℚ) + fee))
                (buyUpsert code price volume l.positions)
                ⟨code, .BUY, price, volume, fee, .FILLED⟩,
               ⟨code, .BUY, price, volume, fee, .FILLED⟩)
      | .SELL =>
        match findPos l.positions code with
        | none => .error .PositionNotFound
        | some p =>
          if p.avail_vol < volume then
            .error .InsufficientAvailableVolume
          else
            .ok (commitOrder l a (a.cash + (price * (volume : ℚ) - fee))
                  (sellUpdate code volume l.positions)
                  ⟨code, .SELL, price, volume, fee, .FILLED⟩,
                 ⟨code, .SELL, price, volume, fee, .FILLED⟩)

/-- Modelled from the spec: lookup in the price map handed to
`sync_prices`. -/
def lookupPrice (m : List (String × ℚ)) (code : String) : Option ℚ :=
  (m.find? (fun kv => kv.1 == code)).map Prod.snd

/-- Modelled from the spec: the per-position step of `sync_prices` — when the
code appears in the price map, set `current_price` and recompute `profit`
and `profit_pct`; otherwise leave the position unchanged. -/
def syncPos (m : List (String × ℚ)) (p : Position) : Position :=
  match lookupPrice m p.code with
  | none => p
  | some cp =>
    { p with
        current_price := some cp,
        profit := (cp - p.avg_price) * (p.total_vol : ℚ),
        profit_pct :=
          if 0 < p.avg_price then (cp - p.avg_price) / p.avg_price * 100 else 0 }

/-- Modelled from the spec: the atomic batch `sync_prices` — update every
position whose code appears in the map, then recompute `market_value` and
`total_asset` exactly once, returning the count of positions updated. -/
def sync_prices (l : Ledger) (m : List (String × ℚ)) :
    Except LedgerError (Ledger × ℕ) :=
  match l.account with
  | none => .error .AccountNotInitialized
  | some a =>
    let ps' := l.positions.map (syncPos m)
    .ok ({ l with
            account := some { a with
              market_value := marketValue ps',
              total_asset := a.cash + marketValue ps' },
            positions := ps' },
         (l.positions.filter (fun p => (lookupPrice m p.code).isSome)).length)

/-- Modelled from the spec: `initialize_account(initial_cash)` — create the
singleton Account row only if it does not already exist, with
`cash = total_asset = initial_cash` and `market_value = frozen_cash = 0`. -/
def initialize_account (l : Ledger) (initial_cash : ℚ) : Ledger :=
  match l.account with
  | some _ => l
  | none =>
    { l with account := some (⟨initial_cash, 0, 0, initial_cash⟩ : Account) }

/-- Modelled from the spec: the Daily Unlock Procedure — set
`avail_vol := total_vol` for every Position. -/
def daily_unlock (l : Ledger) : Ledger :=
  { l with positions := l.positions.map (fun p => { p with avail_vol := p.total_vol }) }

/-- Modelled from the spec: `FEE_RATE = 0.002`, applied by the Settlement
Service to both buy and sell notional value. -/
def FEE_RATE : ℚ := 2 / 1000

/-- Modelled from the spec: `execute_buy` of the Settlement Service —
`fee = price × volume × FEE_RATE`, then the store's `execute_order(BUY, …)`.
Its advisory pre-check `cash ≥ price×volume×(1+FEE_RATE)` coincides exactly
with the store's authoritative funds check, so it adds no behaviour. -/
def execute_buy (l : Ledger) (code : String) (price : ℚ) (volume : ℕ) :
    Except LedgerError (Ledger × Order) :=
  execute_order l code .BUY price volume (price * (volume : ℚ) * FEE_RATE)

/-- Modelled from the spec: `execute_sell` of the Settlement Service —
`fee = price × volume × FEE_RATE`, then the store's
`execute_order(SELL, …)`. -/
def execute_sell (l : Ledger) (code : String) (price : ℚ) (volume : ℕ) :
    Except LedgerError (Ledger × Order) :=
  execute_order l code .SELL price volume (price * (volume : ℚ) * FEE_RATE)

/-- Modelled from the spec: the state transition of an `execute_order` call —
on success the committed ledger, on failure the unchanged one (the failed
transaction is rolled back). -/
def applyOrder (l : Ledger) (code : String) (act : Action) (price : ℚ)
    (volume : ℕ) (fee : ℚ) : Ledger :=
  match execute_order l code act price volume fee with
  | .ok r => r.1
  | .error _ => l

/-- Modelled from the spec: the state transition of a `sync_prices` call. -/
def applySync (l : Ledger) (m : List (String × ℚ)) : Ledger :=
  match sync_prices l m with
  | .ok r => r.1
  | .error _ => l

/-- The empty store, before any initialization. -/
def emptyLedger : Ledger := { account := none, positions := [], orders := [] }

/-- Modelled from the spec: the reachable ledger states — an
`initialize_account` call on the fresh store followed by any sequence of
order executions, price syncs, further initialization attempts and daily
unlocks. -/
inductive Reachable : Ledger → Prop where
  | init (c : ℚ) : Reachable (initialize_account emptyLedger c)
  | reinit (l : Ledger) (c : ℚ) : Reachable l → Reachable (initialize_account l c)
  | order (l : Ledger) (code : String) (act : Action) (price : ℚ) (volume : ℕ)
      (fee : ℚ) : Reachable l → Reachable (applyOrder l code act price volume fee)
  | sync (l : Ledger) (m : List (String × ℚ)) : Reachable l →
      Reachable (applySync l m)
  | unlock (l : Ledger) : Reachable l → Reachable (daily_unlock l)

/-! ### Frontend: position display fallback (`Portfolio.tsx`, `SellOrderModal.tsx`) -/

/-- The fields of the frontend `PortfolioPosition` interface
(`types/api.ts`) that the portfolio page and the sell dialog read; every
volume field is optional there. -/
structure UIPosition where
  shares : Option ℕ
  total_vol : Option ℕ
  avail_vol : Option ℕ
deriving DecidableEq

/-- `Portfolio.tsx`: `const totalVol = pos.total_vol ?? pos.shares ?? 0`. -/
def portfolioTotalVol (p : UIPosition) : ℕ :=
  p.total_vol.getD (p.shares.getD 0)

/-- `Portfolio.tsx`: `const availVol = pos.avail_vol ?? totalVol`. -/
def portfolioAvailVol (p : UIPosition) : ℕ :=
  p.avail_vol.getD (portfolioTotalVol p)

/-- `Portfolio.tsx`: the sell button's `disabled={availVol === 0}`. -/
def sellDisabled (p : UIPosition) : Bool :=
  portfolioAvailVol p == 0

/-- `SellOrderModal.tsx`: `const availVol = position.avail_vol ?? position.shares ?? 0`. -/
def sellModalAvailVol (p : UIPosition) : ℕ :=
  p.avail_vol.getD (p.shares.getD 0)

/-! ### Frontend: event bus (`eventBus.ts`) -/

/-- A subscribed handler as `publish` sees it: it reads and updates ambient
state of type `σ` and optionally throws an error of type `ε`. -/
def Handler (σ ε : Type) : Type := σ → σ × Option ε

/-- `EventBus.publish`, inner loop: `handlers.forEach((handler) => { try {
handler(event) } catch (error) { console.error(...) } })` — every handler is
run in order on the evolving state; a thrown error is caught and logged
(collected here), and iteration continues.  The result is the final state,
the caught errors in order, and the number of handler invocations. -/
def publishList {σ ε : Type} : List (Handler σ ε) → σ → σ × List ε × ℕ
  | [], s => (s, [], 0)
  | h :: hs, s =>
    let r := h s
    let rest := publishList hs r.1
    (rest.1, (r.2.elim [] (fun e => [e])) ++ rest.2.1, rest.2.2 + 1)

/-- The event bus: its `handlers` map from event type to the subscribed
handler set (`Map<EventType, Set<EventHandler>>`), with the set's iteration
order made explicit as a list. -/
structure EventBus (σ ε : Type) where
  handlers : String → List (Handler σ ε)

/-- `EventBus.publish(type)`: run every handler subscribed to `type`. -/
def publish {σ ε : Type} (b : EventBus σ ε) (type : String) (s : σ) :
    σ × List ε × ℕ :=
  publishList (b.handlers type) s

/-- A type-valid `PortfolioPosition` payload carrying only the new-style
`total_vol` field: `avail_vol` and the legacy `shares` are absent. -/
def orphanPos : UIPosition :=
  { shares := none, total_vol := some 100, avail_vol := none }

/-- The ledger state of the spec's concrete scenario right before the sell:
after initializing with 100000, buying 100 shares of AAA at 10.00 (fee 2)
and running the daily unlock. -/
def sellDemoLedger : Ledger :=
  { account := some ⟨98998, 0, 0, 98998⟩,
    positions := [⟨"AAA", 100, 100, 10, none, 0, 0⟩],
    orders := [⟨"AAA", .BUY, 10, 100, 2, .FILLED⟩] }

/-! ### Helper lemmas about the ledger operations -/

/-- The Account-level invariant of §8: the stored `market_value` is the sum
of `current_price × total_vol` over the live positions, and `total_asset`
equals `cash + market_value`. -/
def accountInv (l : Ledger) : Prop :=
  ∀ a, l.account = some a →
    a.market_value = marketValue l.positions ∧
    a.total_asset = a.cash + marketValue l.positions

theorem commitOrder_inv (l : Ledger) (a : Account) (cash' : ℚ)
    (ps' : List Position) (o : Order) : accountInv (commitOrder l a cash' ps' o) := by
  intro b hb
  simp only [commitOrder, Option.some.injEq] at hb
  subst hb
  exact ⟨rfl, rfl⟩

/-- Inversion of a successful `execute_order`: the pre-state facts it
certifies and the exact committed post-state, per action. -/
theorem exec_ok_cases {l : Ledger} {code : String} {act : Action} {price : ℚ}
    {volume : ℕ} {fee : ℚ} {l' : Ledger} {o : Order}
    (h : execute_order l code act price volume fee = .ok (l', o)) :
    ∃ a, l.account = some a ∧ 0 < price ∧ volume ≠ 0 ∧
      ((act = .BUY ∧ ¬ a.cash < price * (volume : ℚ) + fee ∧
          o = ⟨code, .BUY, price, volume, fee, .FILLED⟩ ∧
          l' = commitOrder l a (a.cash - (price * (volume : ℚ) + fee))
                (buyUpsert code price volume l.positions) o) ∨
       (act = .SELL ∧ ∃ p, findPos l.positions code = some p ∧
          ¬ p.avail_vol < volume ∧
          o = ⟨code, .SELL, price, volume, fee, .FILLED⟩ ∧
          l' = commitOrder l a (a.cash + (price * (volume : ℚ) - fee))
                (sellUpdate code volume l.positions) o)) := by
  cases hacct : l.account with
  | none =>
    exfalso
    unfold execute_order at h
    rw [hacct] at h
    split at h <;> simp at h
  | some a =>
    unfold execute_order at h
    rw [hacct] at h
    dsimp only at h
    split at h
    · simp at h
    · rename_i hvalid
      push_neg at hvalid
      refine ⟨a, rfl, hvalid.1, hvalid.2, ?_⟩
      cases act with
      | BUY =>
        left
        dsimp only at h
        split at h
        · simp at h
        · rename_i hcash
          simp only [Except.ok.injEq, Prod.mk.injEq] at h
          refine ⟨rfl, hcash, h.2.symm, ?_⟩
          rw [← h.2, h.1]
      | SELL =>
        right
        dsimp only at h
        cases hpos : findPos l.positions code with
        | none => rw [hpos] at h; simp at h
        | some p =>
          rw [hpos] at h
          dsimp only at h
          split at h
          · simp at h
          · rename_i hav
            simp only [Except.ok.injEq, Prod.mk.injEq] at h
            refine ⟨rfl, p, rfl, hav, h.2.symm, ?_⟩
            rw [← h.2, h.1]

theorem exec_ok_inv {l : Ledger} {code : String} {act : Action} {price : ℚ}
    {volume : ℕ} {fee : ℚ} {l' : Ledger} {o : Order}
    (h : execute_order l code act price volume fee = .ok (l', o)) :
    accountInv l' := by
  obtain ⟨a, -, -, -, hcase⟩ := exec_ok_cases h
  rcases hcase with ⟨-, -, -, hl⟩ | ⟨-, p, -, -, -, hl⟩ <;>
    exact hl ▸ commitOrder_inv _ _ _ _ _

theorem exec_ok_account_some {l : Ledger} {code : String} {act : Action}
    {price : ℚ} {volume : ℕ} {fee : ℚ} {l' : Ledger} {o : Order}
    (h : execute_order l code act price volume fee = .ok (l', o)) :
    l'.account.isSome := by
  obtain ⟨a, -, -, -, hcase⟩ := exec_ok_cases h
  rcases hcase with ⟨-, -, -, hl⟩ | ⟨-, p, -, -, -, hl⟩ <;>
    simp [hl, commitOrder]

theorem sync_ok_cases {l : Ledger} {m : List (String × ℚ)} {l' : Ledger}
    {n : ℕ} (h : sync_prices l m = .ok (l', n)) :
    ∃ a, l.account = some a ∧
      l'.positions = l.positions.map (syncPos m) ∧
      l'.orders = l.orders ∧
      n = (l.positions.filter (fun p => (lookupPrice m p.code).isSome)).length ∧
      l'.account = some { a with
        market_value := marketValue (l.positions.map (syncPos m)),
        total_asset := a.cash + marketValue (l.positions.map (syncPos m)) } := by
  unfold sync_prices at h
  cases hacct : l.account with
  | none => rw [hacct] at h; exact absurd h (by simp)
  | some a =>
    rw [hacct] at h
    simp only [Except.ok.injEq, Prod.mk.injEq] at h
    exact ⟨a, rfl, h.1.symm ▸ rfl, h.1.symm ▸ rfl, h.2.symm, h.1.symm ▸ rfl⟩

theorem marketValue_unlock (ps : List Position) :
    marketValue (ps.map (fun p => { p with avail_vol := p.total_vol })) =
      marketValue ps := by
  induction ps with
  | nil => rfl
  | cons p ps ih => simp [marketValue] at ih ⊢; rw [ih]

/-- Every reachable state satisfies the account invariant, and a reachable
state with no account row has no positions. -/
theorem reachable_inv {l : Ledger} (h : Reachable l) :
    accountInv l ∧ (l.account = none → l.positions = []) := by
  induction h with
  | init c =>
    constructor
    · intro a ha
      simp only [initialize_account, emptyLedger, Option.some.injEq] at ha
      subst ha
      exact ⟨rfl, by simp [marketValue, initialize_account, emptyLedger]⟩
    · intro ha
      simp [initialize_account, emptyLedger] at ha
  | reinit l c hl ih =>
    cases hacct : l.account with
    | some a =>
      have : initialize_account l c = l := by
        unfold initialize_account; rw [hacct]
      rw [this]; exact ih
    | none =>
      have hps : l.positions = [] := ih.2 hacct
      have heq : initialize_account l c =
          { l with account := some (⟨c, 0, 0, c⟩ : Account) } := by
        unfold initialize_account; rw [hacct]
      rw [heq]
      constructor
      · intro a ha
        simp only [Option.some.injEq] at ha
        subst ha
        simp [hps, marketValue]
      · intro ha; simp at ha
  | order l code act price volume fee hl ih =>
    unfold applyOrder
    cases hx : execute_order l code act price volume fee with
    | error e => exact ih
    | ok r =>
      constructor
      · have hok : execute_order l code act price volume fee = .ok (r.1, r.2) := by
          rw [hx]
        exact exec_ok_inv hok
      · intro ha
        have hok : execute_order l code act price volume fee = .ok (r.1, r.2) := by
          rw [hx]
        have := exec_ok_account_some hok
        rw [ha] at this; exact absurd this (by simp)
  | sync l m hl ih =>
    unfold applySync
    cases hx : sync_prices l m with
    | error e => exact ih
    | ok r =>
      have hok : sync_prices l m = .ok (r.1, r.2) := by
        rw [hx]
      obtain ⟨a, hacct, hps, -, -, hacct'⟩ := sync_ok_cases hok
      constructor
      · intro b hb
        rw [hacct'] at hb
        simp only [Option.some.injEq] at hb
        subst hb
        exact ⟨hps ▸ rfl, hps ▸ rfl⟩
      · intro hnone; rw [hacct'] at hnone; exact absurd hnone (by simp)
  | unlock l hl ih =>
    constructor
    · intro a ha
      have ha' : l.account = some a := ha
      have := ih.1 a ha'
      simpa [daily_unlock, marketValue_unlock] using this
    · intro ha
      have : l.positions = [] := ih.2 ha
      simp [daily_unlock, this]

/-! ### C1 -/

/-- C1: In every reachable ledger state (after `initialize_account` followed
by any sequence of `execute_order`, `sync_prices` and daily-unlock calls),
the Account's `total_asset` equals `cash + market_value`, where
`market_value` is the sum over all live positions of
`current_price × total_vol` (exact rational arithmetic, so the
floating-point tolerance is met exactly). -/
theorem total_asset_invariant (l : Ledger) (h : Reachable l) (a : Account)
    (ha : l.account = some a) :
    a.total_asset = a.cash + marketValue l.positions ∧
    a.market_value = marketValue l.positions := by
  have := (reachable_inv h).1 a ha
  exact ⟨this.2, this.1⟩

/-- Witness for C1 at the concrete state reached by
`initialize_account 100000`. -/
theorem total_asset_invariant_witness :
    (⟨100000, 0, 0, 100000⟩ : Account).total_asset
      = (⟨100000, 0, 0, 100000⟩ : Account).cash
        + marketValue (initialize_account emptyLedger 100000).positions :=
  (total_asset_invariant _ (Reachable.init 100000) _ rfl).1

/-! ### Lookup lemmas for the positions table -/

theorem findPos_buyUpsert_self (code : String) (price : ℚ) (volume : ℕ)
    (ps : List Position) :
    findPos (buyUpsert code price volume ps) code =
      some ((findPos ps code).elim (newPos code price volume) (buyUpd price volume)) := by
  induction ps with
  | nil => simp [buyUpsert, findPos, newPos]
  | cons p ps ih =>
    by_cases hc : p.code = code
    · simp [buyUpsert, findPos, hc, buyUpd]
    · simp only [buyUpsert, beq_iff_eq, hc, if_false, ite_false]
      rw [findPos, List.find?_cons_of_neg, findPos, List.find?_cons_of_neg]
      · exact ih
      · simp [hc]
      · simp [hc]

theorem findPos_buyUpsert_ne {c' code : String} (hne : c' ≠ code)
    (price : ℚ) (volume : ℕ) (ps : List Position) :
    findPos (buyUpsert code price volume ps) c' = findPos ps c' := by
  induction ps with
  | nil => simp [buyUpsert, findPos, newPos, Ne.symm hne]
  | cons p ps ih =>
    by_cases hc : p.code = code
    · rw [show buyUpsert code price volume (p :: ps) = buyUpd price volume p :: ps by
        simp [buyUpsert, hc]]
      rw [findPos, List.find?_cons_of_neg, findPos, List.find?_cons_of_neg]
      · simp [hc, Ne.symm hne]
      · simp [buyUpd, hc, Ne.symm hne]
    · rw [show buyUpsert code price volume (p :: ps) = p :: buyUpsert code price volume ps by
        simp [buyUpsert, hc]]
      by_cases hpc : p.code = c'
      · rw [findPos, List.find?_cons_of_pos, findPos, List.find?_cons_of_pos] <;> simp [hpc]
      · rw [findPos, List.find?_cons_of_neg, findPos, List.find?_cons_of_neg]
        · exact ih
        · simp [hpc]
        · simp [hpc]

theorem findPos_eq_none_of_not_mem {ps : List Position} {c : String}
    (h : c ∉ ps.map Position.code) : findPos ps c = none := by
  rw [findPos, List.find?_eq_none]
  intro p hp hbeq
  exact h (List.mem_map.mpr ⟨p, hp, beq_iff_eq.mp hbeq⟩)

theorem findPos_sellUpdate_self {ps : List Position} {code : String}
    {p : Position} (volume : ℕ)
    (hnd : (ps.map Position.code).Nodup) (hfind : findPos ps code = some p) :
    findPos (sellUpdate code volume ps) code =
      if p.total_vol - volume = 0 then none else some (sellUpd volume p) := by
  induction ps with
  | nil => simp [findPos] at hfind
  | cons q ps ih =>
    by_cases hc : q.code = code
    · have hq : q = p := by
        simp only [findPos] at hfind
        rw [List.find?_cons_of_pos] at hfind
        · exact Option.some.inj hfind
        · simp [hc]
      subst hq
      rw [show sellUpdate code volume (q :: ps) =
          if q.total_vol - volume = 0 then ps else sellUpd volume q :: ps by
        simp [sellUpdate, hc]]
      split
      · exact findPos_eq_none_of_not_mem (hc ▸ (List.nodup_cons.mp hnd).1)
      · rw [findPos, List.find?_cons_of_pos _ (by simp [sellUpd, hc])]
    · have hfind' : findPos ps code = some p := by
        rw [findPos, List.find?_cons_of_neg _ (by simp [hc])] at hfind
        exact hfind
      rw [show sellUpdate code volume (q :: ps) = q :: sellUpdate code volume ps by
        simp [sellUpdate, hc]]
      rw [findPos, List.find?_cons_of_neg _ (by simp [hc])]
      exact ih (List.nodup_cons.mp hnd).2 hfind'

theorem findPos_map (f : Position → Position) (hf : ∀ p, (f p).code = p.code)
    (ps : List Position) (c : String) :
    findPos (ps.map f) c = (findPos ps c).map f := by
  induction ps with
  | nil => rfl
  | cons p ps ih =>
    by_cases hc : p.code = c
    · rw [List.map_cons, findPos, List.find?_cons_of_pos _ (by simp [hf, hc]),
        findPos, List.find?_cons_of_pos _ (by simp [hc])]
      rfl
    · rw [List.map_cons, findPos, List.find?_cons_of_neg _ (by simp [hf, hc]),
        findPos, List.find?_cons_of_neg _ (by simp [hc])]
      exact ih

theorem mem_codes_buyUpsert {c' code : String} {price : ℚ} {volume : ℕ}
    {ps : List Position}
    (h : c' ∈ (buyUpsert code price volume ps).map Position.code) :
    c' ∈ ps.map Position.code ∨ c' = code := by
  induction ps with
  | nil => simp [buyUpsert, newPos] at h; exact Or.inr h
  | cons p ps ih =>
    by_cases hc : p.code = code
    · rw [show buyUpsert code price volume (p :: ps) = buyUpd price volume p :: ps by
        simp [buyUpsert, hc]] at h
      rcases List.mem_cons.mp h with h1 | h1
      · exact Or.inl (List.mem_cons.mpr (Or.inl h1))
      · exact Or.inl (List.mem_cons.mpr (Or.inr h1))
    · rw [show buyUpsert code price volume (p :: ps) = p :: buyUpsert code price volume ps by
        simp [buyUpsert, hc]] at h
      rcases List.mem_cons.mp h with h1 | h1
      · exact Or.inl (List.mem_cons.mpr (Or.inl h1))
      · rcases ih h1 with h2 | h2
        · exact Or.inl (List.mem_cons.mpr (Or.inr h2))
        · exact Or.inr h2

theorem nodup_codes_buyUpsert {code : String} {price : ℚ} {volume : ℕ}
    {ps : List Position} (hnd : (ps.map Position.code).Nodup) :
    ((buyUpsert code price volume ps).map Position.code).Nodup := by
  induction ps with
  | nil => simp [buyUpsert, newPos]
  | cons p ps ih =>
    obtain ⟨hhead, htail⟩ := List.nodup_cons.mp hnd
    by_cases hc : p.code = code
    · rw [show buyUpsert code price volume (p :: ps) = buyUpd price volume p :: ps by
        simp [buyUpsert, hc]]
      exact List.nodup_cons.mpr ⟨hhead, htail⟩
    · rw [show buyUpsert code price volume (p :: ps) = p :: buyUpsert code price volume ps by
        simp [buyUpsert, hc]]
      rw [List.map_cons, List.nodup_cons]
      refine ⟨fun hmem => ?_, ih htail⟩
      rcases mem_codes_buyUpsert hmem with h1 | h1
      · exact hhead h1
      · exact hc h1

/-! ### Forward reduction of the store operations -/

theorem exec_buy_reduce {l : Ledger} {a : Account} (code : String)
    {price : ℚ} {volume : ℕ} {fee : ℚ}
    (hacct : l.account = some a) (hvalid : ¬ (price ≤ 0 ∨ volume = 0))
    (hcash : ¬ a.cash < price * (volume : ℚ) + fee) :
    execute_order l code .BUY price volume fee =
      .ok (commitOrder l a (a.cash - (price * (volume : ℚ) + fee))
            (buyUpsert code price volume l.positions)
            ⟨code, .BUY, price, volume, fee, .FILLED⟩,
           ⟨code, .BUY, price, volume, fee, .FILLED⟩) := by
  unfold execute_order
  rw [hacct, if_neg hvalid]
  exact if_neg hcash

theorem exec_sell_reduce {l : Ledger} {a : Account} {p : Position}
    {code : String} {price : ℚ} {volume : ℕ} (fee : ℚ)
    (hacct : l.account = some a) (hvalid : ¬ (price ≤ 0 ∨ volume = 0))
    (hpos : findPos l.positions code = some p) :
    execute_order l code .SELL price volume fee =
      if p.avail_vol < volume then .error .InsufficientAvailableVolume
      else
        .ok (commitOrder l a (a.cash + (price * (volume : ℚ) - fee))
              (sellUpdate code volume l.positions)
              ⟨code, .SELL, price, volume, fee, .FILLED⟩,
             ⟨code, .SELL, price, volume, fee, .FILLED⟩) := by
  unfold execute_order
  rw [hacct, if_neg hvalid, hpos]

/-! ### C2 -/

/-- C2: A successful BUY through `execute_order` upserts the position: when
no position for the code exists, it creates one with `total_vol = volume`,
`avail_vol = 0` and `avg_price = price`; when one exists, `avg_price`
becomes the volume-weighted average, `total_vol` grows by `volume` and
`avail_vol` is untouched (T+1 rule); every other code's position is
untouched. -/
theorem buy_position_upsert {l : Ledger} {code : String} {price : ℚ}
    {volume : ℕ} {fee : ℚ} {l' : Ledger} {o : Order}
    (h : execute_order l code .BUY price volume fee = .ok (l', o)) :
    (findPos l.positions code = none →
        findPos l'.positions code = some (newPos code price volume) ∧
        (newPos code price volume).total_vol = volume ∧
        (newPos code price volume).avail_vol = 0 ∧
        (newPos code price volume).avg_price = price) ∧
    (∀ p, findPos l.positions code = some p →
        findPos l'.positions code = some (buyUpd price volume p) ∧
        (buyUpd price volume p).avg_price =
          (p.avg_price * (p.total_vol : ℚ) + price * (volume : ℚ)) /
            ((p.total_vol : ℚ) + (volume : ℚ)) ∧
        (buyUpd price volume p).total_vol = p.total_vol + volume ∧
        (buyUpd price volume p).avail_vol = p.avail_vol) ∧
    (∀ c', c' ≠ code → findPos l'.positions c' = findPos l.positions c') := by
  obtain ⟨a, hacct, hp, hv, hcase⟩ := exec_ok_cases h
  rcases hcase with ⟨-, hcash, ho, hl⟩ | ⟨hact, -⟩
  · have hps : l'.positions = buyUpsert code price volume l.positions := by
      rw [hl]
      rfl
    refine ⟨fun hnone => ?_, fun p hp' => ?_, fun c' hc' => ?_⟩
    · rw [hps, findPos_buyUpsert_self, hnone]
      exact ⟨rfl, rfl, rfl, rfl⟩
    · rw [hps, findPos_buyUpsert_self, hp']
      exact ⟨rfl, rfl, rfl, rfl⟩
    · rw [hps, findPos_buyUpsert_ne hc']
  · exact absurd hact (by simp)

/-- Witness for C2: the first concrete buy of the spec's scenario creates
the expected fresh position. -/
theorem buy_position_upsert_witness :
    ∃ l', execute_order (initialize_account emptyLedger 100000) "AAA" .BUY 10 100 2
        = .ok (l', ⟨"AAA", .BUY, 10, 100, 2, .FILLED⟩) ∧
      findPos l'.positions "AAA" = some (newPos "AAA" 10 100) := by
  have hacct0 : (initialize_account emptyLedger 100000).account
      = some ⟨100000, 0, 0, 100000⟩ := rfl
  have hvalid0 : ¬ ((10 : ℚ) ≤ 0 ∨ (100 : ℕ) = 0) := by norm_num
  have hcash0 : ¬ ((100000 : ℚ) < 10 * ((100 : ℕ) : ℚ) + 2) := by norm_num
  have h := exec_buy_reduce "AAA" hacct0 hvalid0 hcash0
  exact ⟨_, h, ((buy_position_upsert h).1 rfl).1⟩


/-! ### C3 -/

/-- C3: A failed `execute_order` or `sync_prices` call raises exactly one of
the six error kinds and leaves the whole ledger state — Account, every
Position and the Orders table — exactly as it was (in the model, the state
transition of a failed call is the identity, covering in particular a
failure at the Order-insert step, which aborts the whole transaction). -/
theorem failed_call_rollback (l : Ledger) (code : String) (act : Action)
    (price : ℚ) (volume : ℕ) (fee : ℚ) (m : List (String × ℚ))
    (e e' : LedgerError) :
    (execute_order l code act price volume fee = .error e →
      (e = .AccountNotInitialized ∨ e = .InvalidOrderParameters ∨
       e = .InsufficientFunds ∨ e = .PositionNotFound ∨
       e = .InsufficientAvailableVolume ∨ e = .TransactionAborted) ∧
      applyOrder l code act price volume fee = l) ∧
    (sync_prices l m = .error e' →
      (e' = .AccountNotInitialized ∨ e' = .InvalidOrderParameters ∨
       e' = .InsufficientFunds ∨ e' = .PositionNotFound ∨
       e' = .InsufficientAvailableVolume ∨ e' = .TransactionAborted) ∧
      applySync l m = l) := by
  constructor
  · intro h
    refine ⟨by cases e <;> simp, ?_⟩
    unfold applyOrder
    rw [h]
  · intro h
    refine ⟨by cases e' <;> simp, ?_⟩
    unfold applySync
    rw [h]

/-- Witness for C3: the uninitialized store rejects both calls and is left
unchanged. -/
theorem failed_call_rollback_witness :
    applyOrder emptyLedger "AAA" .BUY 1 1 0 = emptyLedger ∧
    applySync emptyLedger [] = emptyLedger := by
  have hbuy : execute_order emptyLedger "AAA" .BUY 1 1 0 =
      .error .AccountNotInitialized := by
    unfold execute_order
    rw [if_neg (by norm_num)]
    rfl
  have hsync : sync_prices emptyLedger [] = .error .AccountNotInitialized := rfl
  exact ⟨((failed_call_rollback emptyLedger "AAA" .BUY 1 1 0 []
      .AccountNotInitialized .AccountNotInitialized).1 hbuy).2,
    ((failed_call_rollback emptyLedger "AAA" .BUY 1 1 0 []
      .AccountNotInitialized .AccountNotInitialized).2 hsync).2⟩

/-! ### C5 -/

/-- C5: With an initialized account and valid parameters, a BUY with
`cost = price × volume + fee` fails with `InsufficientFunds` — and changes
nothing — exactly when `cash < cost`; whenever `cost ≤ cash` (in particular
when cash equals cost exactly) the buy succeeds. -/
theorem buy_insufficient_funds_iff (l : Ledger) (code : String) (price : ℚ)
    (volume : ℕ) (fee : ℚ) (a : Account) (hacct : l.account = some a)
    (hp : 0 < price) (hv : volume ≠ 0) :
    (execute_order l code .BUY price volume fee = .error .InsufficientFunds ↔
      a.cash < price * (volume : ℚ) + fee) ∧
    (a.cash < price * (volume : ℚ) + fee →
      applyOrder l code .BUY price volume fee = l) ∧
    (price * (volume : ℚ) + fee ≤ a.cash →
      ∃ r, execute_order l code .BUY price volume fee = .ok r) := by
  have hvalid : ¬ (price ≤ 0 ∨ volume = 0) := by
    push_neg
    exact ⟨hp, hv⟩
  have hred : execute_order l code .BUY price volume fee =
      if a.cash < price * (volume : ℚ) + fee then .error .InsufficientFunds
      else
        .ok (commitOrder l a (a.cash - (price * (volume : ℚ) + fee))
              (buyUpsert code price volume l.positions)
              ⟨code, .BUY, price, volume, fee, .FILLED⟩,
             ⟨code, .BUY, price, volume, fee, .FILLED⟩) := by
    unfold execute_order
    rw [hacct, if_neg hvalid]
  refine ⟨?_, ?_, ?_⟩
  · rw [hred]
    by_cases hc : a.cash < price * (volume : ℚ) + fee
    · simp [hc]
    · simp [hc]
  · intro hc
    unfold applyOrder
    rw [hred, if_pos hc]
  · intro hc
    rw [hred, if_neg (not_lt.mpr hc)]
    exact ⟨_, rfl⟩

/-- Witness for C5: buying with cash exactly equal to the cost
(1002 = 10 × 100 + 2) succeeds. -/
theorem buy_insufficient_funds_iff_witness :
    ∃ r, execute_order (initialize_account emptyLedger 1002) "AAA" .BUY 10 100 2
      = .ok r :=
  (buy_insufficient_funds_iff (initialize_account emptyLedger 1002) "AAA"
      10 100 2 ⟨1002, 0, 0, 1002⟩ rfl (by norm_num) (by norm_num)).2.2
    (by norm_num)

/-! ### C8 -/

/-- C8: `initialize_account` is idempotent-on-absence: with no Account row it
creates the singleton with `cash = total_asset = initial_cash` and
`market_value = frozen_cash = 0`; with the row present it changes nothing;
hence two consecutive calls always have the same effect as one. -/
theorem initialize_account_idempotent (l : Ledger) (c : ℚ) :
    (l.account = none →
      initialize_account l c =
        { l with account := some (⟨c, 0, 0, c⟩ : Account) }) ∧
    (∀ a, l.account = some a → initialize_account l c = l) ∧
    initialize_account (initialize_account l c) c = initialize_account l c := by
  refine ⟨?_, ?_, ?_⟩
  · intro h
    unfold initialize_account
    rw [h]
  · intro a h
    unfold initialize_account
    rw [h]
  · cases h : l.account with
    | some a =>
      have heq : initialize_account l c = l := by
        unfold initialize_account
        rw [h]
      rw [heq, heq]
    | none =>
      have heq : initialize_account l c =
          { l with account := some (⟨c, 0, 0, c⟩ : Account) } := by
        unfold initialize_account
        rw [h]
      rw [heq]
      unfold initialize_account
      rfl

/-- Witness for C8 at the fresh store with an initial cash of 100000. -/
theorem initialize_account_idempotent_witness :
    initialize_account (initialize_account emptyLedger 100000) 100000 =
      initialize_account emptyLedger 100000 ∧
    initialize_account emptyLedger 100000 =
      { emptyLedger with account := some (⟨100000, 0, 0, 100000⟩ : Account) } :=
  ⟨(initialize_account_idempotent emptyLedger 100000).2.2,
   (initialize_account_idempotent emptyLedger 100000).1 rfl⟩


/-! ### C4 -/

/-- C4: A SELL on a live position fails with `InsufficientAvailableVolume`
and changes nothing when `avail_vol < volume`; when `volume ≤ avail_vol`
(including equality) it succeeds, cash grows by `price × volume − fee`,
both volumes shrink by `volume`, and the position row is deleted entirely
exactly when `total_vol` reaches zero. -/
theorem sell_semantics (l : Ledger) (code : String) (price : ℚ) (volume : ℕ)
    (fee : ℚ) (a : Account) (p : Position)
    (hacct : l.account = some a) (hp : 0 < price) (hv : volume ≠ 0)
    (hpos : findPos l.positions code = some p)
    (hnd : (l.positions.map Position.code).Nodup) :
    (p.avail_vol < volume →
        execute_order l code .SELL price volume fee =
          .error .InsufficientAvailableVolume ∧
        applyOrder l code .SELL price volume fee = l) ∧
    (volume ≤ p.avail_vol →
        ∃ l' o a', execute_order l code .SELL price volume fee = .ok (l', o) ∧
          l'.account = some a' ∧
          a'.cash = a.cash + (price * (volume : ℚ) - fee) ∧
          (p.total_vol - volume = 0 → findPos l'.positions code = none) ∧
          (p.total_vol - volume ≠ 0 →
            findPos l'.positions code = some (sellUpd volume p) ∧
            (sellUpd volume p).total_vol = p.total_vol - volume ∧
            (sellUpd volume p).avail_vol = p.avail_vol - volume)) := by
  have hvalid : ¬ (price ≤ 0 ∨ volume = 0) := by
    push_neg
    exact ⟨hp, hv⟩
  have hred := exec_sell_reduce fee hacct hvalid hpos
  constructor
  · intro hav
    have herr : execute_order l code .SELL price volume fee =
        .error .InsufficientAvailableVolume := by
      rw [hred, if_pos hav]
    refine ⟨herr, ?_⟩
    unfold applyOrder
    rw [herr]
  · intro hav
    have hnav : ¬ p.avail_vol < volume := not_lt.mpr hav
    have hupd := findPos_sellUpdate_self volume hnd hpos
    refine ⟨_, _, _, by rw [hred, if_neg hnav], rfl, rfl, fun h0 => ?_, fun h0 => ?_⟩
    · show findPos (sellUpdate code volume l.positions) code = none
      rw [hupd, if_pos h0]
    · refine ⟨?_, rfl, rfl⟩
      show findPos (sellUpdate code volume l.positions) code = some (sellUpd volume p)
      rw [hupd, if_neg h0]

/-- Witness for C4: selling the whole unlocked position of the spec's
scenario succeeds and deletes the position row. -/
theorem sell_semantics_witness :
    ∃ l' o, execute_order sellDemoLedger "AAA" .SELL 12 100 0 = .ok (l', o) ∧
      findPos l'.positions "AAA" = none := by
  obtain ⟨l', o, a', hok, -, -, hdel, -⟩ :=
    (sell_semantics sellDemoLedger "AAA" 12 100 0 ⟨98998, 0, 0, 98998⟩
        ⟨"AAA", 100, 100, 10, none, 0, 0⟩ rfl (by norm_num) (by norm_num) rfl
        (by simp [sellDemoLedger])).2 (le_refl 100)
  exact ⟨l', o, hok, hdel rfl⟩

/-! ### C7 -/

/-- C7: With an initialized account, `sync_prices` succeeds; every position
whose code is in the map gets `current_price` set and `profit` /
`profit_pct` recomputed (the latter is 0 when `avg_price ≤ 0`) while its
volumes and `avg_price` are untouched; positions not in the map are
unchanged; the returned count is the number of positions whose code is in
the map; and `market_value` / `total_asset` are recomputed once, from the
already-updated positions. -/
theorem sync_prices_semantics (l : Ledger) (m : List (String × ℚ))
    (a : Account) (hacct : l.account = some a) :
    ∃ l' n a', sync_prices l m = .ok (l', n) ∧
      l'.positions = l.positions.map (syncPos m) ∧
      (∀ p, lookupPrice m p.code = none → syncPos m p = p) ∧
      (∀ p cp, lookupPrice m p.code = some cp →
          (syncPos m p).current_price = some cp ∧
          (syncPos m p).profit = (cp - p.avg_price) * (p.total_vol : ℚ) ∧
          (syncPos m p).profit_pct =
            (if 0 < p.avg_price then (cp - p.avg_price) / p.avg_price * 100
             else 0) ∧
          (syncPos m p).total_vol = p.total_vol ∧
          (syncPos m p).avail_vol = p.avail_vol ∧
          (syncPos m p).avg_price = p.avg_price) ∧
      n = (l.positions.filter (fun p => (lookupPrice m p.code).isSome)).length ∧
      l'.account = some a' ∧
      a'.cash = a.cash ∧
      a'.market_value = marketValue l'.positions ∧
      a'.total_asset = a.cash + marketValue l'.positions := by
  have hred : sync_prices l m =
      .ok ({ l with
              account := some { a with
                market_value := marketValue (l.positions.map (syncPos m)),
                total_asset := a.cash + marketValue (l.positions.map (syncPos m)) },
              positions := l.positions.map (syncPos m) },
           (l.positions.filter (fun p => (lookupPrice m p.code).isSome)).length) := by
    unfold sync_prices
    rw [hacct]
  refine ⟨_, _, _, hred, rfl, ?_, ?_, rfl, rfl, rfl, rfl, rfl⟩
  · intro p hp
    unfold syncPos
    rw [hp]
  · intro p cp hp
    unfold syncPos
    rw [hp]
    exact ⟨rfl, rfl, rfl, rfl, rfl, rfl⟩

/-- Witness for C7 at the freshly initialized store with an empty price
map. -/
theorem sync_prices_semantics_witness :
    ∃ l' n, sync_prices (initialize_account emptyLedger 100000) [] = .ok (l', n) ∧
      n = 0 := by
  obtain ⟨l', n, a', hok, -, -, -, hn, -, -, -, -⟩ :=
    sync_prices_semantics (initialize_account emptyLedger 100000) []
      ⟨100000, 0, 0, 100000⟩ rfl
  refine ⟨l', n, hok, ?_⟩
  rw [hn]
  rfl


/-! ### C6 -/

/-- C6: From any starting state that permits the trades, a BUY of `V` shares
of `X` at price `P` through the Settlement Service (fee `V×P×FEE_RATE`),
followed by the daily unlock and a SELL of the same `V` at the same `P`,
returns `cash` exactly to its pre-trade value minus `2 × V×P×FEE_RATE`. -/
theorem buy_sell_roundtrip (l : Ledger) (a : Account) (X : String) (P : ℚ)
    (V : ℕ) (hacct : l.account = some a) (hp : 0 < P) (hv : V ≠ 0)
    (hcash : P * (V : ℚ) + P * (V : ℚ) * FEE_RATE ≤ a.cash) :
    ∃ l₁ o₁ l₂ o₂ a₂,
      execute_buy l X P V = .ok (l₁, o₁) ∧
      execute_sell (daily_unlock l₁) X P V = .ok (l₂, o₂) ∧
      l₂.account = some a₂ ∧
      a₂.cash = a.cash - 2 * ((V : ℚ) * P * FEE_RATE) := by
  have hvalid : ¬ (P ≤ 0 ∨ V = 0) := by
    push_neg
    exact ⟨hp, hv⟩
  have hnlt : ¬ a.cash < P * (V : ℚ) + P * (V : ℚ) * FEE_RATE := not_lt.mpr hcash
  set l1 : Ledger := commitOrder l a
      (a.cash - (P * (V : ℚ) + P * (V : ℚ) * FEE_RATE))
      (buyUpsert X P V l.positions)
      (⟨X, .BUY, P, V, P * (V : ℚ) * FEE_RATE, .FILLED⟩ : Order) with hl1
  have hbuy' : execute_buy l X P V =
      .ok (l1, ⟨X, .BUY, P, V, P * (V : ℚ) * FEE_RATE, .FILLED⟩) :=
    exec_buy_reduce X hacct hvalid hnlt
  set a1 : Account := { a with
      cash := a.cash - (P * (V : ℚ) + P * (V : ℚ) * FEE_RATE),
      market_value := marketValue (buyUpsert X P V l.positions),
      total_asset := a.cash - (P * (V : ℚ) + P * (V : ℚ) * FEE_RATE)
        + marketValue (buyUpsert X P V l.positions) } with ha1
  have hacct1 : (daily_unlock l1).account = some a1 := rfl
  set q : Position := (findPos l.positions X).elim (newPos X P V) (buyUpd P V)
    with hq
  have hfind1 : findPos (daily_unlock l1).positions X =
      some { q with avail_vol := q.total_vol } := by
    show findPos ((buyUpsert X P V l.positions).map
        (fun p => { p with avail_vol := p.total_vol })) X = _
    rw [findPos_map (fun p => { p with avail_vol := p.total_vol }) (fun p => rfl),
      findPos_buyUpsert_self]
    rw [hq]
    rfl
  have hV : V ≤ q.total_vol := by
    rw [hq]
    cases hfp : findPos l.positions X with
    | none => exact le_refl V
    | some p => exact Nat.le_add_left V p.total_vol
  have hnav : ¬ ({ q with avail_vol := q.total_vol } : Position).avail_vol < V :=
    not_lt.mpr hV
  have hsell' : execute_sell (daily_unlock l1) X P V =
      .ok (commitOrder (daily_unlock l1) a1
            (a1.cash + (P * (V : ℚ) - P * (V : ℚ) * FEE_RATE))
            (sellUpdate X V (daily_unlock l1).positions)
            ⟨X, .SELL, P, V, P * (V : ℚ) * FEE_RATE, .FILLED⟩,
           ⟨X, .SELL, P, V, P * (V : ℚ) * FEE_RATE, .FILLED⟩) := by
    show execute_order (daily_unlock l1) X .SELL P V (P * (V : ℚ) * FEE_RATE) = _
    rw [exec_sell_reduce (P * (V : ℚ) * FEE_RATE) hacct1 hvalid hfind1, if_neg hnav]
  refine ⟨l1, _, _, _, _, hbuy', hsell', rfl, ?_⟩
  show a1.cash + (P * (V : ℚ) - P * (V : ℚ) * FEE_RATE)
      = a.cash - 2 * ((V : ℚ) * P * FEE_RATE)
  rw [ha1]
  show a.cash - (P * (V : ℚ) + P * (V : ℚ) * FEE_RATE)
      + (P * (V : ℚ) - P * (V : ℚ) * FEE_RATE)
      = a.cash - 2 * ((V : ℚ) * P * FEE_RATE)
  ring

/-- Witness for C6: the spec's scenario numbers — buy 100 of AAA at 10 from
100000 cash, unlock, sell 100 at 10: cash returns to 100000 minus the two
fees. -/
theorem buy_sell_roundtrip_witness :
    ∃ l₁ o₁ l₂ o₂ a₂,
      execute_buy (initialize_account emptyLedger 100000) "AAA" 10 100 = .ok (l₁, o₁) ∧
      execute_sell (daily_unlock l₁) "AAA" 10 100 = .ok (l₂, o₂) ∧
      l₂.account = some a₂ ∧
      a₂.cash = (⟨100000, 0, 0, 100000⟩ : Account).cash
        - 2 * (((100 : ℕ) : ℚ) * 10 * FEE_RATE) :=
  buy_sell_roundtrip (initialize_account emptyLedger 100000)
    ⟨100000, 0, 0, 100000⟩ "AAA" 10 100 rfl
    (by norm_num) (by norm_num) (by norm_num [FEE_RATE])


/-! ### C9 -/

/-- C9 counterexample: for a position carrying only `total_vol`
(`avail_vol` and `shares` both absent) the sell dialog's substituted
available volume is 0, not the position's total volume of 100 — so the two
components do not both substitute the total volume, and the dialog does not
offer such a position as fully sellable. -/
theorem sell_modal_fallback_counterexample :
    orphanPos.avail_vol = none ∧
    portfolioTotalVol orphanPos = 100 ∧
    sellModalAvailVol orphanPos ≠ portfolioTotalVol orphanPos := by
  refine ⟨rfl, rfl, ?_⟩
  decide

/-- C9 (amended): For every position whose `avail_vol` is absent, the
portfolio page substitutes `total_vol` (falling back to `shares`, then 0)
for the available volume, while the sell dialog substitutes only `shares`
(falling back to 0) — the two agree whenever `total_vol` is absent — and
the page's sell action is disabled exactly when the page's substituted
available volume is 0. -/
theorem position_fallback_amended (p : UIPosition) (h : p.avail_vol = none) :
    portfolioAvailVol p = portfolioTotalVol p ∧
    sellModalAvailVol p = p.shares.getD 0 ∧
    (p.total_vol = none → sellModalAvailVol p = portfolioTotalVol p) ∧
    (sellDisabled p = true ↔ portfolioAvailVol p = 0) := by
  refine ⟨?_, ?_, ?_, ?_⟩
  · simp [portfolioAvailVol, h]
  · simp [sellModalAvailVol, h]
  · intro ht
    simp [sellModalAvailVol, portfolioTotalVol, h, ht]
  · simp [sellDisabled]

/-- Witness for C9 (amended) at a legacy position carrying only `shares`. -/
theorem position_fallback_amended_witness :
    portfolioAvailVol ⟨some 50, none, none⟩ =
      portfolioTotalVol ⟨some 50, none, none⟩ ∧
    sellModalAvailVol ⟨some 50, none, none⟩ =
      portfolioTotalVol ⟨some 50, none, none⟩ :=
  ⟨(position_fallback_amended ⟨some 50, none, none⟩ rfl).1,
   (position_fallback_amended ⟨some 50, none, none⟩ rfl).2.2.1 rfl⟩

/-! ### C10 -/

/-- C10: `EventBus.publish` invokes every handler subscribed to the event
type exactly once (the invocation count equals the number of subscribed
handlers), and the final state is the in-order fold of all the handlers'
state updates — so a handler that throws neither aborts `publish` (whose
result type carries the caught errors as data, never a propagated
exception) nor prevents any later handler from running. -/
theorem publish_runs_every_handler {σ ε : Type} (b : EventBus σ ε)
    (type : String) (s : σ) :
    (publish b type s).2.2 = (b.handlers type).length ∧
    (publish b type s).1 =
      (b.handlers type).foldl (fun t h => (h t).1) s := by
  unfold publish
  generalize b.handlers type = hs
  induction hs generalizing s with
  | nil => exact ⟨rfl, rfl⟩
  | cons h hs ih =>
    refine ⟨?_, ?_⟩
    · show (publishList hs (h s).1).2.2 + 1 = hs.length + 1
      rw [(ih (h s).1).1]
    · show (publishList hs (h s).1).1 = hs.foldl (fun t h => (h t).1) (h s).1
      exact (ih (h s).1).2


end Alpha
